import Mathlib

/-!
Shallow embedding of the core text-analysis pipeline of the RAG Token
Analyzer (three approximate tokenizers, paragraph splitter, chunker,
entity extractor, attention model, analysis aggregator and hint rules),
together with theorems checking the specified properties.

Strings of the source are modelled as `List Char`; JavaScript numbers
appearing in divisions are modelled as `ℚ`, with `Option` used where a
JavaScript computation yields a non-finite value (`NaN`/`Infinity`).
-/

/-- JavaScript regex class for whitespace. The source matches
whitespace with the class of the JS engine; this set lists the
characters recognised there (ASCII whitespace together with the
Unicode space characters of the JS definition). -/
def isSpaceJS (c : Char) : Bool :=
  c = ' ' || c = '\t' || c = '\n' || c = '\r' || c = '\x0b' || c = '\x0c' ||
  c = '\u00A0' || c = '\u1680' || ('\u2000' ≤ c && c ≤ '\u200A') ||
  c = '\u2028' || c = '\u2029' || c = '\u202F' || c = '\u205F' ||
  c = '\u3000' || c = '\uFEFF'

/-- The JS regex class of uppercase ASCII letters. -/
def isUpperA (c : Char) : Bool := 'A' ≤ c && c ≤ 'Z'

/-- The JS regex class of lowercase ASCII letters. -/
def isLowerA (c : Char) : Bool := 'a' ≤ c && c ≤ 'z'

/-- The JS regex class of ASCII digits. -/
def isDigitA (c : Char) : Bool := '0' ≤ c && c ≤ '9'

/-- The JS regex class of ASCII letters. -/
def isAlphaA (c : Char) : Bool := isUpperA c || isLowerA c

/-- The JS regex word class (letters, digits, underscore). -/
def isWordChar (c : Char) : Bool := isAlphaA c || isDigitA c || c = '_'

/-- One left-to-right matching step of `approximateTokenize`
(source lines 12-42): the pattern list is tried in order (whitespace
run, capitalized word, lowercase run, digit run, single punctuation,
single special character) with a one-character fallback. The last
three patterns and the fallback all consume exactly the one leading
character, so they are collapsed into a single `[c]` branch. -/
def gptMatch : List Char → List Char
  | [] => []
  | c :: cs =>
    if isSpaceJS c then c :: cs.takeWhile isSpaceJS
    else if isUpperA c && !(cs.takeWhile isLowerA).isEmpty then
      c :: cs.takeWhile isLowerA
    else if isLowerA c then c :: cs.takeWhile isLowerA
    else if isDigitA c then c :: cs.takeWhile isDigitA
    else [c]

/-- The inner loop of the source lines 28-30: a long word is pushed as
consecutive slices of at most 4 characters. -/
def split4 : List Char → List (List Char)
  | [] => []
  | c :: cs => ((c :: cs).take 4) :: split4 ((c :: cs).drop 4)
termination_by l => l.length
decreasing_by
  simp [List.length_drop]
  omega

theorem gptMatch_pos (c : Char) (cs : List Char) :
    0 < (gptMatch (c :: cs)).length := by
  simp only [gptMatch]
  repeat' split
  all_goals simp

/-- The GPT-family tokenizer `approximateTokenize` (source lines 4-45).
Each iteration consumes the matched word; an all-alphabetic matched
word longer than 4 characters is pushed as its 4-character slices. -/
def approximateTokenize : List Char → List (List Char)
  | [] => []
  | c :: cs =>
    (if 4 < (gptMatch (c :: cs)).length && (gptMatch (c :: cs)).all isAlphaA
       then split4 (gptMatch (c :: cs))
       else [gptMatch (c :: cs)])
    ++ approximateTokenize ((c :: cs).drop (gptMatch (c :: cs)).length)
termination_by l => l.length
decreasing_by
  have h := gptMatch_pos c cs
  simp [List.length_drop]
  omega

/-- One matching step of `approximateClaudeTokenize` (source lines
54-61): capitalized words capped at 6 characters, lowercase runs
capped at 5; the single-character patterns collapse into `[c]`. -/
def claudeMatch : List Char → List Char
  | [] => []
  | c :: cs =>
    if isSpaceJS c then c :: cs.takeWhile isSpaceJS
    else if isUpperA c then c :: (cs.takeWhile isLowerA).take 5
    else if isLowerA c then c :: (cs.takeWhile isLowerA).take 4
    else if isDigitA c then c :: cs.takeWhile isDigitA
    else [c]

theorem claudeMatch_pos (c : Char) (cs : List Char) :
    0 < (claudeMatch (c :: cs)).length := by
  simp only [claudeMatch]
  repeat' split
  all_goals simp

/-- The Claude-family tokenizer `approximateClaudeTokenize`
(source lines 48-79); matched words are pushed whole. -/
def approximateClaudeTokenize : List Char → List (List Char)
  | [] => []
  | c :: cs =>
    claudeMatch (c :: cs)
      :: approximateClaudeTokenize ((c :: cs).drop (claudeMatch (c :: cs)).length)
termination_by l => l.length
decreasing_by
  have h := claudeMatch_pos c cs
  simp [List.length_drop]
  omega

/-- One matching step of `approximateGeminiTokenize` (source lines
88-93): an alphabetic run of 1-6 characters, optionally preceded by
the SentencePiece marker, has priority over whitespace and digit
runs; again the single-character patterns collapse into `[c]`. -/
def geminiMatch : List Char → List Char
  | [] => []
  | c :: cs =>
    if c = '\u2581' && !(cs.takeWhile isAlphaA).isEmpty then
      c :: (cs.takeWhile isAlphaA).take 6
    else if isAlphaA c then c :: (cs.takeWhile isAlphaA).take 5
    else if isSpaceJS c then c :: cs.takeWhile isSpaceJS
    else if isDigitA c then c :: cs.takeWhile isDigitA
    else [c]

theorem geminiMatch_pos (c : Char) (cs : List Char) :
    0 < (geminiMatch (c :: cs)).length := by
  simp only [geminiMatch]
  repeat' split
  all_goals simp

/-- The Gemini-family tokenizer `approximateGeminiTokenize`
(source lines 82-111). -/
def approximateGeminiTokenize : List Char → List (List Char)
  | [] => []
  | c :: cs =>
    geminiMatch (c :: cs)
      :: approximateGeminiTokenize ((c :: cs).drop (geminiMatch (c :: cs)).length)
termination_by l => l.length
decreasing_by
  have h := geminiMatch_pos c cs
  simp [List.length_drop]
  omega

theorem takeWhile_drop_of_append {u v cs : List Char} (h : u ++ v = cs) :
    u ++ cs.drop u.length = cs := by
  subst h
  rw [List.drop_left]

theorem takeWhile_self_append (p : Char → Bool) (cs : List Char) :
    cs.takeWhile p ++ cs.drop (cs.takeWhile p).length = cs :=
  takeWhile_drop_of_append (List.takeWhile_append_dropWhile p cs)

theorem takeWhile_take_append (p : Char → Bool) (cs : List Char) (k : Nat) :
    (cs.takeWhile p).take k ++ cs.drop ((cs.takeWhile p).take k).length = cs := by
  apply takeWhile_drop_of_append
  rw [← List.append_assoc, List.take_append_drop]
  exact List.takeWhile_append_dropWhile p cs

theorem gptMatch_append (c : Char) (cs : List Char) :
    gptMatch (c :: cs) ++ (c :: cs).drop (gptMatch (c :: cs)).length = c :: cs := by
  simp only [gptMatch]
  repeat' split
  all_goals
    simp only [List.length_cons, List.drop_succ_cons, List.cons_append, List.cons.injEq,
      true_and, List.length_nil, List.drop_zero, List.nil_append, List.length_singleton]
  · exact takeWhile_self_append isSpaceJS cs
  · exact takeWhile_self_append isLowerA cs
  · exact takeWhile_self_append isLowerA cs
  · exact takeWhile_self_append isDigitA cs

theorem claudeMatch_append (c : Char) (cs : List Char) :
    claudeMatch (c :: cs) ++ (c :: cs).drop (claudeMatch (c :: cs)).length = c :: cs := by
  simp only [claudeMatch]
  repeat' split
  all_goals
    simp only [List.length_cons, List.drop_succ_cons, List.cons_append, List.cons.injEq,
      true_and, List.length_nil, List.drop_zero, List.nil_append, List.length_singleton]
  · exact takeWhile_self_append isSpaceJS cs
  · exact takeWhile_take_append isLowerA cs 5
  · exact takeWhile_take_append isLowerA cs 4
  · exact takeWhile_self_append isDigitA cs

theorem geminiMatch_append (c : Char) (cs : List Char) :
    geminiMatch (c :: cs) ++ (c :: cs).drop (geminiMatch (c :: cs)).length = c :: cs := by
  simp only [geminiMatch]
  repeat' split
  all_goals
    simp only [List.length_cons, List.drop_succ_cons, List.cons_append, List.cons.injEq,
      true_and, List.length_nil, List.drop_zero, List.nil_append, List.length_singleton]
  · exact takeWhile_take_append isAlphaA cs 6
  · exact takeWhile_take_append isAlphaA cs 5
  · exact takeWhile_self_append isSpaceJS cs
  · exact takeWhile_self_append isDigitA cs

theorem split4_flatten : ∀ w : List Char, (split4 w).flatten = w
  | [] => by simp [split4]
  | c :: cs => by
    rw [split4]
    rw [List.flatten_cons, split4_flatten ((c :: cs).drop 4), List.take_append_drop]
termination_by w => w.length
decreasing_by
  simp [List.length_drop]
  omega

theorem gpt_flatten : ∀ l : List Char, (approximateTokenize l).flatten = l
  | [] => by simp [approximateTokenize]
  | c :: cs => by
    rw [approximateTokenize]
    have ih := gpt_flatten ((c :: cs).drop (gptMatch (c :: cs)).length)
    rw [List.flatten_append, ih]
    split
    · rw [split4_flatten, gptMatch_append]
    · rw [List.flatten_cons, List.flatten_nil, List.append_nil, gptMatch_append]
termination_by l => l.length
decreasing_by
  have h := gptMatch_pos c cs
  simp [List.length_drop]
  omega

theorem claude_flatten : ∀ l : List Char, (approximateClaudeTokenize l).flatten = l
  | [] => by simp [approximateClaudeTokenize]
  | c :: cs => by
    rw [approximateClaudeTokenize]
    have ih := claude_flatten ((c :: cs).drop (claudeMatch (c :: cs)).length)
    rw [List.flatten_cons, ih, claudeMatch_append]
termination_by l => l.length
decreasing_by
  have h := claudeMatch_pos c cs
  simp [List.length_drop]
  omega

theorem gemini_flatten : ∀ l : List Char, (approximateGeminiTokenize l).flatten = l
  | [] => by simp [approximateGeminiTokenize]
  | c :: cs => by
    rw [approximateGeminiTokenize]
    have ih := gemini_flatten ((c :: cs).drop (geminiMatch (c :: cs)).length)
    rw [List.flatten_cons, ih, geminiMatch_append]
termination_by l => l.length
decreasing_by
  have h := geminiMatch_pos c cs
  simp [List.length_drop]
  omega

/-- C1: for every input string (including the empty string, pure
whitespace, and strings with no alphanumeric characters), each of the
three tokenizers returns a token sequence whose concatenation, in
order, equals the original input string exactly. -/
theorem tokenizers_concat_exact (l : List Char) :
    (approximateTokenize l).flatten = l ∧
    (approximateClaudeTokenize l).flatten = l ∧
    (approximateGeminiTokenize l).flatten = l :=
  ⟨gpt_flatten l, claude_flatten l, gemini_flatten l⟩

theorem split4_length_le : ∀ w : List Char, (split4 w).length ≤ w.length
  | [] => by simp [split4]
  | c :: cs => by
    rw [split4]
    have ih := split4_length_le ((c :: cs).drop 4)
    simp only [List.length_cons, List.length_drop] at ih ⊢
    omega
termination_by w => w.length
decreasing_by
  simp [List.length_drop]
  omega

theorem gptMatch_le (c : Char) (cs : List Char) :
    (gptMatch (c :: cs)).length ≤ (c :: cs).length := by
  have h := congrArg List.length (gptMatch_append c cs)
  rw [List.length_append] at h
  omega

theorem claudeMatch_le (c : Char) (cs : List Char) :
    (claudeMatch (c :: cs)).length ≤ (c :: cs).length := by
  have h := congrArg List.length (claudeMatch_append c cs)
  rw [List.length_append] at h
  omega

theorem geminiMatch_le (c : Char) (cs : List Char) :
    (geminiMatch (c :: cs)).length ≤ (c :: cs).length := by
  have h := congrArg List.length (geminiMatch_append c cs)
  rw [List.length_append] at h
  omega

theorem gpt_length_le : ∀ l : List Char, (approximateTokenize l).length ≤ l.length
  | [] => by simp [approximateTokenize]
  | c :: cs => by
    rw [approximateTokenize]
    have ih := gpt_length_le ((c :: cs).drop (gptMatch (c :: cs)).length)
    have hpos := gptMatch_pos c cs
    have hle := gptMatch_le c cs
    have hs := split4_length_le (gptMatch (c :: cs))
    rw [List.length_append]
    split
    · simp only [List.length_drop] at ih ⊢
      omega
    · simp only [List.length_singleton, List.length_drop] at ih ⊢
      omega
termination_by l => l.length
decreasing_by
  have h := gptMatch_pos c cs
  simp [List.length_drop]
  omega

theorem claude_length_le : ∀ l : List Char, (approximateClaudeTokenize l).length ≤ l.length
  | [] => by simp [approximateClaudeTokenize]
  | c :: cs => by
    rw [approximateClaudeTokenize]
    have ih := claude_length_le ((c :: cs).drop (claudeMatch (c :: cs)).length)
    have hpos := claudeMatch_pos c cs
    simp only [List.length_cons, List.length_drop] at ih ⊢
    omega
termination_by l => l.length
decreasing_by
  have h := claudeMatch_pos c cs
  simp [List.length_drop]
  omega

theorem gemini_length_le : ∀ l : List Char, (approximateGeminiTokenize l).length ≤ l.length
  | [] => by simp [approximateGeminiTokenize]
  | c :: cs => by
    rw [approximateGeminiTokenize]
    have ih := gemini_length_le ((c :: cs).drop (geminiMatch (c :: cs)).length)
    have hpos := geminiMatch_pos c cs
    simp only [List.length_cons, List.length_drop] at ih ⊢
    omega
termination_by l => l.length
decreasing_by
  have h := geminiMatch_pos c cs
  simp [List.length_drop]
  omega

/-- C9: each tokenizer terminates on every input because every
iteration consumes at least one character (for a non-empty input the
matched word of each scan step is non-empty, which is exactly the
forward-progress guarantee of the single-character fallback), and the
number of tokens produced never exceeds the number of characters of
the input. In the embedding the three tokenizers are total functions;
the forward-progress and output-bound facts below are the finitary
content of the termination claim. -/
theorem tokenizers_bounded (l : List Char) :
    (approximateTokenize l).length ≤ l.length ∧
    (approximateClaudeTokenize l).length ≤ l.length ∧
    (approximateGeminiTokenize l).length ≤ l.length ∧
    (l ≠ [] →
      0 < (gptMatch l).length ∧ 0 < (claudeMatch l).length ∧
      0 < (geminiMatch l).length) := by
  refine ⟨gpt_length_le l, claude_length_le l, gemini_length_le l, ?_⟩
  intro h
  match l, h with
  | c :: cs, _ =>
    exact ⟨gptMatch_pos c cs, claudeMatch_pos c cs, geminiMatch_pos c cs⟩

/-- Witness for C9 at an adversarial input: a run of repeated
identical symbols. -/
theorem tokenizers_bounded_witness :
    (approximateTokenize ("!!!!!!!!".toList)).length ≤ ("!!!!!!!!".toList).length ∧
    0 < (gptMatch ("!!!!!!!!".toList)).length :=
  ⟨(tokenizers_bounded ("!!!!!!!!".toList)).1,
   ((tokenizers_bounded ("!!!!!!!!".toList)).2.2.2 (by decide)).1⟩

/-- A chunk record (source lines 168-174). -/
structure Chunk where
  tokens : List (List Char)
  text : List Char
  startToken : Nat
  endToken : Nat
  tokenCount : Nat
deriving DecidableEq

/-- The loop of `chunkContent` (source lines 163-179), with the
accumulating `currentChunk`, `currentText` and `tokenIndex` taken as
arguments; the test `i === tokens.length - 1` of the source becomes
`ts = []`. The source's unused `text` parameter and `charIndex`
variable are omitted. The chunk size is an `Int` so that zero and
negative sizes are also captured. -/
def chunkAux (chunkSize : Int) :
    List (List Char) → List (List Char) → List Char → Nat → List Chunk
  | [], _, _, _ => []
  | t :: ts, currentChunk, currentText, tokenIndex =>
    if chunkSize ≤ ((currentChunk ++ [t]).length : Int) ∨ ts = [] then
      { tokens := currentChunk ++ [t], text := currentText ++ t,
        startToken := tokenIndex,
        endToken := tokenIndex + (currentChunk ++ [t]).length - 1,
        tokenCount := (currentChunk ++ [t]).length }
        :: chunkAux chunkSize ts [] [] (tokenIndex + (currentChunk ++ [t]).length)
    else chunkAux chunkSize ts (currentChunk ++ [t]) (currentText ++ t) tokenIndex

/-- The function `chunkContent` (source lines 156-182). -/
def chunkContent (chunkSize : Int) (tokens : List (List Char)) : List Chunk :=
  chunkAux chunkSize tokens [] [] 0

/-- The chunk record pushed for a completed group `toks` starting at
token index `idx`. -/
def mkChunk (toks : List (List Char)) (idx : Nat) : Chunk :=
  { tokens := toks, text := toks.flatten, startToken := idx,
    endToken := idx + toks.length - 1, tokenCount := toks.length }

theorem chunkAux_ne_nil (S : Int) :
    ∀ (toks cur : List (List Char)) (ct : List Char) (idx : Nat),
      toks ≠ [] → chunkAux S toks cur ct idx ≠ [] := by
  intro toks
  induction toks with
  | nil => intro cur ct idx h; exact absurd rfl h
  | cons t ts ih =>
    intro cur ct idx _
    rw [chunkAux]
    split
    · simp
    · rename_i hcond
      push_neg at hcond
      exact ih _ _ _ hcond.2

theorem chunkAux_length_le (S : Int) :
    ∀ (toks cur : List (List Char)) (ct : List Char) (idx : Nat),
      (chunkAux S toks cur ct idx).length ≤ toks.length := by
  intro toks
  induction toks with
  | nil => intro cur ct idx; simp [chunkAux]
  | cons t ts ih =>
    intro cur ct idx
    rw [chunkAux]
    split
    · simpa using Nat.succ_le_succ (ih [] [] _)
    · exact Nat.le_succ_of_le (ih _ _ _)

theorem chunkAux_acc (S : Nat) (hS : 1 ≤ S) :
    ∀ (toks cur : List (List Char)) (idx : Nat), toks ≠ [] → cur.length < S →
      chunkAux (S : Int) toks cur cur.flatten idx =
        if toks.length + cur.length ≤ S then
          [mkChunk (cur ++ toks) idx]
        else
          mkChunk (cur ++ toks.take (S - cur.length)) idx
            :: chunkAux (S : Int) (toks.drop (S - cur.length)) [] [] (idx + S) := by
  intro toks
  induction toks with
  | nil => intro cur idx h; exact absurd rfl h
  | cons t ts ih =>
    intro cur idx _ hcur
    rw [chunkAux]
    have hlen : (cur ++ [t]).length = cur.length + 1 := by simp
    by_cases hts : ts = []
    · subst hts
      rw [if_pos (Or.inr rfl)]
      rw [chunkAux]
      rw [if_pos (by simp only [List.length_cons, List.length_nil]; omega)]
      simp [mkChunk, hlen, List.flatten_append]
    · by_cases hflush : S ≤ cur.length + 1
      · have hSeq : S = cur.length + 1 := by omega
        have htspos : 0 < ts.length := List.length_pos.mpr hts
        rw [if_pos (Or.inl (by rw [hlen]; exact_mod_cast hflush))]
        rw [if_neg (by simp only [List.length_cons]; omega)]
        have h1 : S - cur.length = 1 := by omega
        rw [h1]
        rw [show (t :: ts).take 1 = [t] from rfl, show (t :: ts).drop 1 = ts from rfl]
        congr 1
        · simp [mkChunk, List.flatten_append]
        · rw [hlen, ← hSeq]
      · rw [if_neg (by
          rw [hlen]
          push_neg
          constructor
          · exact_mod_cast Nat.lt_of_not_le hflush
          · exact hts)]
        have hflat : cur.flatten ++ t = (cur ++ [t]).flatten := by
          simp [List.flatten_append]
        rw [hflat]
        rw [ih (cur ++ [t]) idx hts (by rw [hlen]; omega)]
        rw [hlen]
        by_cases hcond : ts.length + (cur.length + 1) ≤ S
        · rw [if_pos hcond]
          rw [if_pos (by simp only [List.length_cons]; omega)]
          rw [List.append_assoc, List.singleton_append]
        · rw [if_neg hcond]
          rw [if_neg (by simp only [List.length_cons]; omega)]
          have h2 : S - cur.length = (S - (cur.length + 1)) + 1 := by omega
          rw [h2]
          simp only [List.take_succ_cons, List.drop_succ_cons]
          rw [List.append_assoc, List.singleton_append]

theorem chunkAux_step (S : Nat) (hS : 1 ≤ S) (toks : List (List Char)) (idx : Nat)
    (h : toks ≠ []) :
    chunkAux (S : Int) toks [] [] idx =
      if toks.length ≤ S then [mkChunk toks idx]
      else mkChunk (toks.take S) idx
        :: chunkAux (S : Int) (toks.drop S) [] [] (idx + S) := by
  have := chunkAux_acc S hS toks [] idx h (by simpa using hS)
  simpa using this

theorem chunk_count_aux (S : Nat) (hS : 1 ≤ S) :
    ∀ (n : Nat) (toks : List (List Char)) (idx : Nat), toks.length ≤ n →
      (chunkAux (S : Int) toks [] [] idx).length = (toks.length + S - 1) / S := by
  intro n
  induction n with
  | zero =>
    intro toks idx hlen
    have h0 : toks = [] := List.length_eq_zero.mp (Nat.le_zero.mp hlen)
    subst h0
    simp only [chunkAux, List.length_nil]
    rw [eq_comm, Nat.div_eq_of_lt (by omega)]
  | succ n ih =>
    intro toks idx hlen
    match toks with
    | [] =>
      simp only [chunkAux, List.length_nil]
      rw [eq_comm, Nat.div_eq_of_lt (by omega)]
    | t :: ts =>
      rw [chunkAux_step S hS _ idx (by simp)]
      by_cases hc : (t :: ts).length ≤ S
      · rw [if_pos hc]
        simp only [List.length_cons, List.length_singleton, List.length_nil] at hc ⊢
        rw [eq_comm]
        have h1 : 1 * S ≤ ts.length + 1 + S - 1 := by omega
        have h2 : ts.length + 1 + S - 1 < (1 + 1) * S := by omega
        exact Nat.div_eq_of_lt_le h1 h2
      · rw [if_neg hc]
        simp only [List.length_cons] at hc
        have hlen2 : ((t :: ts).drop S).length ≤ n := by
          simp only [List.length_drop, List.length_cons]
          simp only [List.length_cons] at hlen
          omega
        rw [List.length_cons, ih ((t :: ts).drop S) (idx + S) hlen2]
        simp only [List.length_drop, List.length_cons]
        have e1 : ts.length + 1 - S + S - 1 = ts.length := by omega
        have e2 : ts.length + 1 + S - 1 = ts.length + S := by omega
        rw [e1, e2, Nat.add_div_right _ (by omega)]

theorem chunk_concat_aux (S : Nat) (hS : 1 ≤ S) :
    ∀ (n : Nat) (toks : List (List Char)) (idx : Nat), toks.length ≤ n →
      ((chunkAux (S : Int) toks [] [] idx).map Chunk.text).flatten = toks.flatten := by
  intro n
  induction n with
  | zero =>
    intro toks idx hlen
    have h0 : toks = [] := List.length_eq_zero.mp (Nat.le_zero.mp hlen)
    subst h0
    simp [chunkAux]
  | succ n ih =>
    intro toks idx hlen
    match toks with
    | [] => simp [chunkAux]
    | t :: ts =>
      rw [chunkAux_step S hS _ idx (by simp)]
      by_cases hc : (t :: ts).length ≤ S
      · rw [if_pos hc]
        simp [mkChunk]
      · rw [if_neg hc]
        simp only [List.map_cons, List.flatten_cons]
        rw [ih ((t :: ts).drop S) (idx + S) (by
          simp only [List.length_drop, List.length_cons]
          simp only [List.length_cons] at hlen
          omega)]
        simp only [mkChunk]
        rw [← List.flatten_append, List.take_append_drop, List.flatten_cons]

theorem chunk_dropLast_aux (S : Nat) (hS : 1 ≤ S) :
    ∀ (n : Nat) (toks : List (List Char)) (idx : Nat), toks.length ≤ n →
      ∀ ch ∈ (chunkAux (S : Int) toks [] [] idx).dropLast, ch.tokenCount = S := by
  intro n
  induction n with
  | zero =>
    intro toks idx hlen ch hch
    have h0 : toks = [] := List.length_eq_zero.mp (Nat.le_zero.mp hlen)
    subst h0
    simp [chunkAux] at hch
  | succ n ih =>
    intro toks idx hlen ch hch
    match toks with
    | [] => simp [chunkAux] at hch
    | t :: ts =>
      rw [chunkAux_step S hS _ idx (by simp)] at hch
      by_cases hc : (t :: ts).length ≤ S
      · rw [if_pos hc] at hch
        simp at hch
      · rw [if_neg hc] at hch
        have hdne : (t :: ts).drop S ≠ [] := by
          intro hd
          have hd2 := congrArg List.length hd
          simp only [List.length_drop, List.length_cons, List.length_nil] at hd2
          simp only [List.length_cons] at hc
          omega
        have hne : chunkAux (S : Int) ((t :: ts).drop S) [] [] (idx + S) ≠ [] :=
          chunkAux_ne_nil _ _ _ _ _ hdne
        rw [List.dropLast_cons_of_ne_nil hne] at hch
        rcases List.mem_cons.mp hch with h | h
        · subst h
          simp only [mkChunk, List.length_take, List.length_cons]
          simp only [List.length_cons] at hc
          exact Nat.min_eq_left (by omega)
        · refine ih _ (idx + S) ?_ ch h
          simp only [List.length_drop, List.length_cons]
          simp only [List.length_cons] at hlen
          omega

theorem getLast?_cons_ne {α : Type} (a : α) {l : List α} (h : l ≠ []) :
    (a :: l).getLast? = l.getLast? := by
  cases l with
  | nil => exact absurd rfl h
  | cons b bs => rw [List.getLast?_cons_cons]

theorem chunk_last_aux (S : Nat) (hS : 1 ≤ S) :
    ∀ (n : Nat) (toks : List (List Char)) (idx : Nat), toks.length ≤ n → toks ≠ [] →
      ∀ ch ∈ (chunkAux (S : Int) toks [] [] idx).getLast?,
        ch.tokenCount = if toks.length % S = 0 then S else toks.length % S := by
  intro n
  induction n with
  | zero =>
    intro toks idx hlen hne ch hch
    have hp := List.length_pos.mpr hne
    omega
  | succ n ih =>
    intro toks idx hlen hne ch hch
    match toks with
    | [] => exact absurd rfl hne
    | t :: ts =>
      rw [chunkAux_step S hS _ idx (by simp)] at hch
      by_cases hc : (t :: ts).length ≤ S
      · rw [if_pos hc] at hch
        simp only [List.getLast?_singleton, Option.mem_def, Option.some.injEq] at hch
        subst hch
        simp only [mkChunk, List.length_cons]
        simp only [List.length_cons] at hc
        rcases Nat.lt_or_ge (ts.length + 1) S with h | h
        · rw [if_neg (by rw [Nat.mod_eq_of_lt h]; omega), Nat.mod_eq_of_lt h]
        · have hEq : ts.length + 1 = S := by omega
          rw [hEq, Nat.mod_self, if_pos rfl]
      · rw [if_neg hc] at hch
        have hdne : (t :: ts).drop S ≠ [] := by
          intro hd
          have hd2 := congrArg List.length hd
          simp only [List.length_drop, List.length_cons, List.length_nil] at hd2
          simp only [List.length_cons] at hc
          omega
        have hne2 : chunkAux (S : Int) ((t :: ts).drop S) [] [] (idx + S) ≠ [] :=
          chunkAux_ne_nil _ _ _ _ _ hdne
        rw [getLast?_cons_ne _ hne2] at hch
        have hlen2 : ((t :: ts).drop S).length ≤ n := by
          simp only [List.length_drop, List.length_cons]
          simp only [List.length_cons] at hlen
          omega
        have hrec := ih ((t :: ts).drop S) (idx + S) hlen2 hdne ch hch
        simp only [List.length_drop, List.length_cons] at hrec ⊢
        simp only [List.length_cons] at hc
        have hmod : (ts.length + 1 - S) % S = (ts.length + 1) % S := by
          conv_rhs => rw [show ts.length + 1 = ts.length + 1 - S + S by omega]
          rw [Nat.add_mod_right]
        rw [hmod] at hrec
        exact hrec

theorem chunk_index_aux (S : Nat) (hS : 1 ≤ S) :
    ∀ (n : Nat) (toks : List (List Char)) (idx j : Nat) (ch : Chunk),
      toks.length ≤ n →
      (chunkAux (S : Int) toks [] [] idx)[j]? = some ch →
      ch.startToken = idx + j * S ∧
        ch.endToken = ch.startToken + ch.tokenCount - 1 := by
  intro n
  induction n with
  | zero =>
    intro toks idx j ch hlen hj
    have h0 : toks = [] := List.length_eq_zero.mp (Nat.le_zero.mp hlen)
    subst h0
    simp [chunkAux] at hj
  | succ n ih =>
    intro toks idx j ch hlen hj
    match toks with
    | [] => simp [chunkAux] at hj
    | t :: ts =>
      rw [chunkAux_step S hS _ idx (by simp)] at hj
      by_cases hc : (t :: ts).length ≤ S
      · rw [if_pos hc] at hj
        match j with
        | 0 =>
          simp only [List.getElem?_cons_zero, Option.some.injEq] at hj
          subst hj
          simp [mkChunk]
        | j + 1 =>
          simp only [List.getElem?_cons_succ, List.getElem?_nil] at hj
          exact absurd hj (by simp)
      · rw [if_neg hc] at hj
        match j with
        | 0 =>
          simp only [List.getElem?_cons_zero, Option.some.injEq] at hj
          subst hj
          simp [mkChunk]
        | j + 1 =>
          simp only [List.getElem?_cons_succ] at hj
          have hlen2 : ((t :: ts).drop S).length ≤ n := by
            simp only [List.length_drop, List.length_cons]
            simp only [List.length_cons] at hlen
            omega
          have hrec := ih ((t :: ts).drop S) (idx + S) j ch hlen2 hj
          refine ⟨?_, hrec.2⟩
          rw [hrec.1]
          ring_nf

theorem ceil_div_eq (N S : Nat) (hS : 1 ≤ S) :
    (((N + S - 1) / S : Nat) : Int) = ⌈(N : ℚ) / (S : ℚ)⌉ := by
  have hdm := Nat.div_add_mod (N + S - 1) S
  have hmod : (N + S - 1) % S < S := Nat.mod_lt _ (by omega)
  set q : Nat := (N + S - 1) / S with hq
  have h1 : N ≤ S * q := by omega
  have h2 : S * q < N + S := by omega
  have hSpos : (0 : ℚ) < (S : ℚ) := by
    exact_mod_cast Nat.lt_of_lt_of_le Nat.zero_lt_one hS
  have h1q : (N : ℚ) ≤ (S : ℚ) * (q : ℚ) := by exact_mod_cast h1
  have h2q : (S : ℚ) * (q : ℚ) < (N : ℚ) + (S : ℚ) := by exact_mod_cast h2
  rw [eq_comm, Int.ceil_eq_iff]
  push_cast
  constructor
  · rw [lt_div_iff hSpos]
    nlinarith [h2q]
  · rw [div_le_iff hSpos]
    nlinarith [h1q]

/-- C2: for every token sequence of length N and every chunk size
S ≥ 1, the chunker returns exactly ceil(N/S) chunks (zero chunks when
N = 0); every chunk except the last contains exactly S tokens; the
last chunk contains N mod S tokens (or S when N is an exact multiple
of S); the concatenation of all chunk texts equals the concatenation
of all input tokens; and the chunks carry 0-based contiguous
start/end token indices. -/
theorem chunk_partition (S : Nat) (hS : 1 ≤ S) (tokens : List (List Char)) :
    (chunkContent (S : Int) tokens).length = (tokens.length + S - 1) / S ∧
    ((chunkContent (S : Int) tokens).length : Int) = ⌈(tokens.length : ℚ) / (S : ℚ)⌉ ∧
    ((chunkContent (S : Int) tokens).map Chunk.text).flatten = tokens.flatten ∧
    (∀ ch ∈ (chunkContent (S : Int) tokens).dropLast, ch.tokenCount = S) ∧
    (∀ ch ∈ (chunkContent (S : Int) tokens).getLast?,
      ch.tokenCount = if tokens.length % S = 0 then S else tokens.length % S) ∧
    (∀ (j : Nat) (ch : Chunk), (chunkContent (S : Int) tokens)[j]? = some ch →
      ch.startToken = j * S ∧ ch.endToken = j * S + ch.tokenCount - 1) := by
  have hcount : (chunkContent (S : Int) tokens).length = (tokens.length + S - 1) / S :=
    chunk_count_aux S hS tokens.length tokens 0 le_rfl
  refine ⟨hcount, ?_, chunk_concat_aux S hS tokens.length tokens 0 le_rfl,
    chunk_dropLast_aux S hS tokens.length tokens 0 le_rfl, ?_, ?_⟩
  · rw [hcount]
    exact ceil_div_eq tokens.length S hS
  · rcases eq_or_ne tokens [] with h | h
    · subst h
      intro ch hch
      simp [chunkContent, chunkAux] at hch
    · exact chunk_last_aux S hS tokens.length tokens 0 le_rfl h
  · intro j ch hj
    have hrec := chunk_index_aux S hS tokens.length tokens 0 j ch le_rfl hj
    refine ⟨by simpa using hrec.1, ?_⟩
    rw [hrec.2, hrec.1, Nat.zero_add]

/-- Witness for C2 at chunk size 2 and a three-token input. -/
theorem chunk_partition_witness :
    (chunkContent (2 : Int) [['a'], ['b'], ['c']]).length = 2 ∧
    ((chunkContent (2 : Int) [['a'], ['b'], ['c']]).map Chunk.text).flatten
      = [['a'], ['b'], ['c']].flatten :=
  ⟨(chunk_partition 2 (by decide) [['a'], ['b'], ['c']]).1,
   (chunk_partition 2 (by decide) [['a'], ['b'], ['c']]).2.2.1⟩

/-- The function `getAttentionScore` (source lines 138-153), over exact rationals.
JavaScript float arithmetic is modelled by `ℚ`: every constant in the
source is a decimal literal, so the real-number curve is the exact
content of the float computation up to rounding error far below the
0.01 scale of the comparisons made about it. -/
def getAttentionScore (positionInChunk chunkSize : ℚ) : ℚ :=
  if positionInChunk / chunkSize < 0.15 then
    0.95 - positionInChunk / chunkSize * 0.5
  else if 0.85 < positionInChunk / chunkSize then
    0.7 + (positionInChunk / chunkSize - 0.85) * 1.5
  else
    0.55 + |positionInChunk / chunkSize - 0.5| * 0.3

/-- The "first 15%" branch formula of `getAttentionScore`
(source line 144) taken on its own. -/
def attentionFirstBranch (positionInChunk chunkSize : ℚ) : ℚ :=
  0.95 - positionInChunk / chunkSize * 0.5

/-- The "murky middle" branch formula of `getAttentionScore`
(source lines 149-151) taken on its own. -/
def attentionMiddleBranch (positionInChunk chunkSize : ℚ) : ℚ :=
  0.55 + |positionInChunk / chunkSize - 0.5| * 0.3

/-- The "last 15%" branch formula of `getAttentionScore`
(source line 146) taken on its own. -/
def attentionLastBranch (positionInChunk chunkSize : ℚ) : ℚ :=
  0.7 + (positionInChunk / chunkSize - 0.85) * 1.5

/-- C3 counterexample: at the 0.15 relative-position boundary the
"first 15%" branch yields 0.875 while the "middle" branch yields
0.655, a jump of exactly 0.22 — far outside floating tolerance (it
exceeds even a generous 0.1), so the curve has a large discontinuity
at the 0.15 boundary, contradicting the claim. Chunk size 100,
position 15 = 0.15 × 100. -/
theorem attention_boundary_jump :
    attentionFirstBranch 15 100 = 0.875 ∧
    attentionMiddleBranch 15 100 = 0.655 ∧
    attentionFirstBranch 15 100 - attentionMiddleBranch 15 100 = 0.22 ∧
    ¬ (attentionFirstBranch 15 100 - attentionMiddleBranch 15 100 ≤ 0.1) := by
  have habs : |(15 : ℚ) / 100 - 0.5| = 0.35 := by
    rw [abs_of_neg (by norm_num)]
    norm_num
  refine ⟨by rw [attentionFirstBranch]; norm_num,
          by rw [attentionMiddleBranch, habs]; norm_num,
          by rw [attentionFirstBranch, attentionMiddleBranch, habs]; norm_num,
          by rw [attentionFirstBranch, attentionMiddleBranch, habs]; norm_num⟩

/-- C3 amended: the attention curve is not continuous at the 0.15
boundary: for every chunk size S > 0 the "first 15%" branch value at
relative position 0.15 exceeds the "middle" branch value there by
exactly 0.22 (0.875 against 0.655), while at the 0.85 boundary the
"last 15%" branch differs from the middle branch by only 0.045; the
curve does take the advertised extreme values 0.95 at position 0 and
0.55 at the exact midpoint. -/
theorem attention_boundary_values (S : ℚ) (hS : 0 < S) :
    attentionFirstBranch (0.15 * S) S = 0.875 ∧
    attentionMiddleBranch (0.15 * S) S = 0.655 ∧
    attentionFirstBranch (0.15 * S) S - attentionMiddleBranch (0.15 * S) S = 0.22 ∧
    attentionLastBranch (0.85 * S) S - attentionMiddleBranch (0.85 * S) S = 0.045 ∧
    getAttentionScore 0 S = 0.95 ∧
    getAttentionScore (0.5 * S) S = 0.55 := by
  have hne : S ≠ 0 := ne_of_gt hS
  have hdiv15 : 0.15 * S / S = (0.15 : ℚ) := by
    rw [mul_div_assoc, div_self hne, mul_one]
  have hdiv85 : 0.85 * S / S = (0.85 : ℚ) := by
    rw [mul_div_assoc, div_self hne, mul_one]
  have hdiv50 : 0.5 * S / S = (0.5 : ℚ) := by
    rw [mul_div_assoc, div_self hne, mul_one]
  have habs15 : |(0.15 : ℚ) - 0.5| = 0.35 := by
    rw [abs_of_neg (by norm_num)]
    norm_num
  have habs85 : |(0.85 : ℚ) - 0.5| = 0.35 := by
    rw [abs_of_pos (by norm_num)]
    norm_num
  refine ⟨?_, ?_, ?_, ?_, ?_, ?_⟩
  · rw [attentionFirstBranch, hdiv15]; norm_num
  · rw [attentionMiddleBranch, hdiv15, habs15]; norm_num
  · rw [attentionFirstBranch, attentionMiddleBranch, hdiv15, habs15]; norm_num
  · rw [attentionLastBranch, attentionMiddleBranch, hdiv85, habs85]; norm_num
  · rw [getAttentionScore, zero_div]
    rw [if_pos (by norm_num)]
    norm_num
  · rw [getAttentionScore, hdiv50]
    rw [if_neg (by norm_num), if_neg (by norm_num)]
    norm_num

/-- Witness for C3 amended at chunk size 100. -/
theorem attention_boundary_values_witness :
    attentionFirstBranch (0.15 * 100) 100 - attentionMiddleBranch (0.15 * 100) 100 = 0.22 :=
  (attention_boundary_values 100 (by norm_num)).2.2.1

/-- JavaScript `String.prototype.trim`: strip the whitespace
characters from both ends. -/
def jsTrim (l : List Char) : List Char :=
  ((l.dropWhile isSpaceJS).reverse.dropWhile isSpaceJS).reverse

/-- The JS `text.split(regex)` scan for the separator regex of
`splitParagraphs`, a run of two or more consecutive newlines: `acc`
holds the characters of the piece currently being accumulated; on
seeing two consecutive newlines the piece is emitted and the whole
maximal newline run is consumed as the separator. -/
def splitGo : List Char → List Char → List (List Char)
  | [], acc => [acc]
  | c :: cs, acc =>
    if c = '\n' ∧ cs.head? = some '\n' then
      acc :: splitGo (cs.dropWhile (fun d => d = '\n')) []
    else splitGo cs (acc ++ [c])
termination_by l _ => l.length
decreasing_by
  · have h : (cs.dropWhile (fun d => d = '\n')).length ≤ cs.length :=
      (List.dropWhile_sublist _).length_le
    simp only [List.length_cons]
    omega
  · simp

/-- The function `splitParagraphs` (source lines 185-187): split on two or more
consecutive newlines and keep the pieces whose trimmed form is
non-empty. The kept pieces themselves are not trimmed. -/
def splitParagraphs (text : List Char) : List (List Char) :=
  (splitGo text []).filter (fun p => decide (0 < (jsTrim p).length))

/-- Whether a list of characters contains two consecutive newlines. -/
def hasNN : List Char → Bool
  | a :: b :: rest => (a = '\n' && b = '\n') || hasNN (b :: rest)
  | _ => false

/-- Reassembles pieces and separators: the interleaving
piece₀ ++ sep₁ ++ piece₁ ++ ... of a split result. -/
def glue : List (List Char) → List (List Char) → List Char
  | [], _ => []
  | [p], _ => p
  | p :: _ :: _, [] => p
  | p :: q :: ps, s :: ss => p ++ s ++ glue (q :: ps) ss

/-- C8 counterexample: `splitParagraphs` does not trim the kept
entries — on the input " hi \n\nyo" the first paragraph is returned
as " hi " with its surrounding spaces, which is not its trimmed
form. -/
theorem splitParagraphs_not_trimmed :
    splitParagraphs (" hi \n\nyo".toList) = [" hi ".toList, "yo".toList] ∧
    jsTrim (" hi ".toList) ≠ " hi ".toList := by
  constructor
  · simp [splitParagraphs, splitGo, jsTrim, isSpaceJS, String.toList]
  · decide

theorem hasNN_append (c : Char) : ∀ acc : List Char,
    hasNN (acc ++ [c]) = true ↔
      (hasNN acc = true ∨ (acc.getLast? = some '\n' ∧ c = '\n'))
  | [] => by simp [hasNN]
  | [a] => by
    simp [hasNN]
  | a :: b :: rest => by
    have ih := hasNN_append c (b :: rest)
    simp only [List.cons_append, List.append_eq, hasNN, Bool.or_eq_true,
      Bool.and_eq_true, decide_eq_true_eq] at ih ⊢
    rw [ih, List.getLast?_cons_cons]
    tauto

theorem splitGo_noNN : ∀ (l acc : List Char),
    hasNN acc = false →
    (acc.getLast? = some '\n' → l.head? ≠ some '\n') →
    ∀ p ∈ splitGo l acc, hasNN p = false
  | [], acc => by
    intro h1 _ p hp
    simp only [splitGo, List.mem_singleton] at hp
    subst hp
    exact h1
  | c :: cs, acc => by
    intro h1 h2 p hp
    rw [splitGo] at hp
    split at hp
    · rcases List.mem_cons.mp hp with h | h
      · subst h
        exact h1
      · refine splitGo_noNN _ [] rfl (by simp) p h
    · rename_i hcond
      refine splitGo_noNN cs (acc ++ [c]) ?_ ?_ p hp
      · rw [← Bool.not_eq_true]
        intro hx
        rcases (hasNN_append c acc).mp hx with h | h
        · rw [h] at h1
          exact absurd h1 (by simp)
        · exact (h2 h.1 (by rw [List.head?_cons, h.2])).elim
      · intro hlast
        rw [List.getLast?_concat] at hlast
        have hc : c = '\n' := Option.some.inj hlast
        intro hhead
        exact hcond ⟨hc, hhead⟩
termination_by l _ => l.length
decreasing_by
  all_goals
    have h : (cs.dropWhile (fun d => d = '\n')).length ≤ cs.length :=
      (List.dropWhile_sublist _).length_le
    simp only [List.length_cons]
    omega

theorem splitGo_ne_nil : ∀ (l acc : List Char), splitGo l acc ≠ []
  | [], acc => by
    rw [splitGo]
    simp
  | c :: cs, acc => by
    rw [splitGo]
    split
    · simp
    · exact splitGo_ne_nil cs (acc ++ [c])
termination_by l _ => l.length
decreasing_by
  all_goals
    simp only [List.length_cons]
    omega

theorem glue_cons (p q : List Char) (ps : List (List Char)) (s : List Char)
    (ss : List (List Char)) :
    glue (p :: q :: ps) (s :: ss) = p ++ s ++ glue (q :: ps) ss := by
  rw [glue]

theorem mem_takeWhile_nl : ∀ (cs : List Char) (x : Char),
    x ∈ cs.takeWhile (fun d => decide (d = '\n')) → x = '\n' := by
  intro cs
  induction cs with
  | nil => intro x hx; simp at hx
  | cons d ds ih =>
    intro x hx
    rw [List.takeWhile_cons] at hx
    by_cases hd : d = '\n'
    · rw [if_pos (by simp [hd])] at hx
      rcases List.mem_cons.mp hx with h | h
      · rw [h, hd]
      · exact ih x h
    · rw [if_neg (by simp [hd])] at hx
      simp at hx

theorem splitGo_glue : ∀ (l acc : List Char),
    ∃ seps : List (List Char),
      seps.length + 1 = (splitGo l acc).length ∧
      (∀ s ∈ seps, 2 ≤ s.length ∧ ∀ c ∈ s, c = '\n') ∧
      glue (splitGo l acc) seps = acc ++ l
  | [], acc => by
    refine ⟨[], ?_, by simp, ?_⟩
    · rw [splitGo]
      simp
    · rw [splitGo, glue]
      simp
  | c :: cs, acc => by
    rw [splitGo]
    split
    · rename_i hcond
      obtain ⟨seps, hlen, hsep, hglue⟩ :=
        splitGo_glue (cs.dropWhile (fun d => d = '\n')) []
      refine ⟨(c :: cs.takeWhile (fun d => d = '\n')) :: seps, ?_, ?_, ?_⟩
      · simp only [List.length_cons]
        omega
      · intro s hs
        rcases List.mem_cons.mp hs with h | h
        · subst h
          constructor
          · have h1 : cs.takeWhile (fun d => d = '\n') ≠ [] := by
              rcases cs with _ | ⟨d, ds⟩
              · simp at hcond
              · have hd : d = '\n' := by
                  have := hcond.2
                  rw [List.head?_cons] at this
                  exact Option.some.inj this
                simp [List.takeWhile_cons, hd]
            have h2 := List.length_pos.mpr h1
            simp only [List.length_cons]
            omega
          · intro x hx
            rcases List.mem_cons.mp hx with h | h
            · rw [h, hcond.1]
            · exact mem_takeWhile_nl cs x h
        · exact hsep s h
      · obtain ⟨b, bs, hbs⟩ : ∃ b bs, splitGo (cs.dropWhile (fun d => d = '\n')) [] = b :: bs := by
          rcases hsg : splitGo (cs.dropWhile (fun d => d = '\n')) [] with _ | ⟨b, bs⟩
          · exact absurd hsg (splitGo_ne_nil _ _)
          · exact ⟨b, bs, rfl⟩
        rw [hbs]
        rw [glue_cons]
        rw [← hbs, hglue]
        simp only [List.nil_append]
        rw [List.append_assoc]
        congr 1
        rw [List.cons_append]
        congr 1
        exact List.takeWhile_append_dropWhile _ cs
    · rename_i hcond
      obtain ⟨seps, hlen, hsep, hglue⟩ := splitGo_glue cs (acc ++ [c])
      exact ⟨seps, hlen, hsep, by rw [hglue, List.append_assoc, List.singleton_append]⟩
termination_by l _ => l.length
decreasing_by
  all_goals
    have h : (cs.dropWhile (fun d => d = '\n')).length ≤ cs.length :=
      (List.dropWhile_sublist _).length_le
    simp only [List.length_cons]
    omega

theorem mem_glue : ∀ (ps ss : List (List Char)), ss.length + 1 = ps.length →
    ∀ p ∈ ps, ∀ c ∈ p, c ∈ glue ps ss
  | [], ss => by
    intro h
    simp at h
  | [p], ss => by
    intro _ q hq c hc
    rw [List.mem_singleton] at hq
    subst hq
    rw [glue]
    exact hc
  | p :: q :: ps, ss => by
    intro hlen r hr c hc
    match ss with
    | [] => simp at hlen
    | s :: ss =>
      rw [glue_cons]
      rcases List.mem_cons.mp hr with h | h
      · subst h
        exact List.mem_append.mpr (Or.inl (List.mem_append.mpr (Or.inl hc)))
      · have hrec := mem_glue (q :: ps) ss (by
          simp only [List.length_cons] at hlen ⊢
          omega) r h c hc
        exact List.mem_append.mpr (Or.inr hrec)

theorem jsTrim_all_space (l : List Char) (h : ∀ c ∈ l, isSpaceJS c = true) :
    jsTrim l = [] := by
  rw [jsTrim]
  have h1 : l.dropWhile isSpaceJS = [] := List.dropWhile_eq_nil_iff.mpr h
  rw [h1]
  simp

/-- C8 amended: the paragraph splitter splits the input on runs of two
or more consecutive newlines (the separators of the reconstruction
below are exactly such runs, and no kept entry contains two
consecutive newlines), discards entries that are empty after
trimming, and preserves order; but the kept entries are the raw
segments, with leading and trailing whitespace NOT trimmed; empty or
whitespace-only input yields an empty sequence. -/
theorem splitParagraphs_behavior (l : List Char) :
    (∀ p ∈ splitParagraphs l, jsTrim p ≠ []) ∧
    (∀ p ∈ splitParagraphs l, hasNN p = false) ∧
    (∃ seps : List (List Char),
      seps.length + 1 = (splitGo l []).length ∧
      (∀ s ∈ seps, 2 ≤ s.length ∧ ∀ c ∈ s, c = '\n') ∧
      glue (splitGo l []) seps = l) ∧
    splitParagraphs l = (splitGo l []).filter (fun p => decide (0 < (jsTrim p).length)) ∧
    ((∀ c ∈ l, isSpaceJS c = true) → splitParagraphs l = []) := by
  refine ⟨?_, ?_, ?_, rfl, ?_⟩
  · intro p hp
    have hdec := List.of_mem_filter hp
    intro hnil
    rw [hnil] at hdec
    simp at hdec
  · intro p hp
    exact splitGo_noNN l [] rfl (by simp) p (List.mem_of_mem_filter hp)
  · obtain ⟨seps, hlen, hsep, hglue⟩ := splitGo_glue l []
    exact ⟨seps, hlen, hsep, by rw [hglue, List.nil_append]⟩
  · intro hsp
    obtain ⟨seps, hlen, hsep, hglue⟩ := splitGo_glue l []
    rw [List.nil_append] at hglue
    rw [splitParagraphs, List.filter_eq_nil_iff]
    intro p hp
    have hall : ∀ c ∈ p, isSpaceJS c = true := by
      intro c hc
      apply hsp
      rw [← hglue]
      exact mem_glue (splitGo l []) seps hlen p hp c hc
    rw [jsTrim_all_space p hall]
    simp

/-- Witness for C8 amended on a whitespace-only input. -/
theorem splitParagraphs_behavior_witness : splitParagraphs ("  ".toList) = [] :=
  (splitParagraphs_behavior ("  ".toList)).2.2.2.2 (by decide)

/-- A detected entity (source lines 120-123): surface text and
character offset of the match. -/
structure Entity where
  text : List Char
  position : Nat
deriving DecidableEq

/-- Whether a character is one of the sentence-ending marks of the
lookbehind `[.!?]` in the capitalized-phrase regex (source line 117). -/
def isSentPunct (c : Char) : Bool := c = '.' || c = '!' || c = '?'

/-- The word unit `[A-Z][a-zA-Z]+` of the capitalized-phrase regex:
an uppercase letter followed by one or more letters, matched
greedily; `[]` when there is no match at this position. -/
def capWord : List Char → List Char
  | [] => []
  | c :: cs =>
    if isUpperA c && !(cs.takeWhile isAlphaA).isEmpty then
      c :: cs.takeWhile isAlphaA
    else []

/-- The continuation `(?:\s+[A-Z][a-zA-Z]+)*` of the
capitalized-phrase regex: greedily matched further words joined by
whitespace runs; returns the matched extension (possibly empty).
The `fuel` argument only bounds the recursion depth to make the
recursion structural; every step consumes at least one character, so
a fuel of one more than the length of the remaining text (as passed
by `capCont`) never runs out. -/
def capContF : Nat → List Char → List Char
  | 0, _ => []
  | _, [] => []
  | fuel + 1, c :: cs =>
    if isSpaceJS c &&
        !(capWord ((c :: cs).drop (c :: cs.takeWhile isSpaceJS).length)).isEmpty then
      (c :: cs.takeWhile isSpaceJS)
        ++ capWord ((c :: cs).drop (c :: cs.takeWhile isSpaceJS).length)
        ++ capContF fuel ((c :: cs).drop ((c :: cs.takeWhile isSpaceJS).length
            + (capWord ((c :: cs).drop (c :: cs.takeWhile isSpaceJS).length)).length))
    else []

/-- The continuation of the capitalized-phrase regex at full fuel. -/
def capCont (l : List Char) : List Char := capContF (l.length + 1) l

/-- The full capitalized-phrase pattern
`[A-Z][a-zA-Z]+(?:\s+[A-Z][a-zA-Z]+)*` (source line 117) matched at
the start of `l`; `[]` when there is no match. -/
def capMatch (l : List Char) : List Char :=
  if (capWord l).isEmpty then []
  else capWord l ++ capCont (l.drop (capWord l).length)

/-- The first lookbehind alternative `[.!?]\s+[^A-Z]*` of the
capitalized-phrase regex: some suffix of the prefix before the match
consists of a sentence mark, one or more whitespace characters, and
then only non-uppercase characters. Because whitespace characters
are themselves non-uppercase, the suffix matches exactly when a
sentence mark is followed by a whitespace character and everything
after that is non-uppercase. -/
def lbAlt1 : List Char → Bool
  | [] => false
  | c :: rest =>
    (isSentPunct c &&
      (match rest with
       | [] => false
       | d :: ds => isSpaceJS d && ds.all (fun e => !isUpperA e))) ||
    lbAlt1 rest

/-- The whole lookbehind `(?<=[.!?]\s+[^A-Z]*|^[^A-Z]*)` of the
capitalized-phrase regex, evaluated on the prefix before the match
position: either the first alternative holds of some suffix, or the
entire prefix contains no uppercase letter. -/
def lookbehindOK (pre : List Char) : Bool :=
  lbAlt1 pre || pre.all (fun c => !isUpperA c)

/-- The `matchAll` scan of the capitalized-phrase pass (source lines
117-125): at each position, if the lookbehind holds and the pattern
matches, the match is recorded and the scan resumes after it,
otherwise the scan advances one character. `pre` is the prefix
before the current position, `i` the current character index; `fuel`
bounds the recursion depth (every step consumes at least one
character of the remaining text). -/
def capScanF : Nat → List Char → List Char → Nat → List (List Char × Nat)
  | 0, _, _, _ => []
  | _, _, [], _ => []
  | fuel + 1, pre, c :: cs, i =>
    if lookbehindOK pre && !(capMatch (c :: cs)).isEmpty then
      (capMatch (c :: cs), i)
        :: capScanF fuel (pre ++ capMatch (c :: cs))
            ((c :: cs).drop (capMatch (c :: cs)).length)
            (i + (capMatch (c :: cs)).length)
    else capScanF fuel (pre ++ [c]) cs (i + 1)

/-- The capitalized-phrase scan at full fuel. -/
def capScanGo (pre suf : List Char) (i : Nat) : List (List Char × Nat) :=
  capScanF (suf.length + 1) pre suf i

/-- The `matchAll` scan of the acronym pass `\b([A-Z]{2,})\b`
(source lines 127-133): a run of two or more uppercase letters
bounded on both sides by a non-word character (or the ends of the
string). `prevW` records whether the character before the current
position is a word character; `fuel` bounds the recursion depth
(every step consumes at least one character). -/
def acroScanF : Nat → Bool → List Char → Nat → List (List Char × Nat)
  | 0, _, _, _ => []
  | _, _, [], _ => []
  | fuel + 1, prevW, c :: cs, i =>
    if !prevW && decide (2 ≤ ((c :: cs).takeWhile isUpperA).length) &&
        (((c :: cs).drop ((c :: cs).takeWhile isUpperA).length).head?.all
          (fun d => !isWordChar d)) then
      ((c :: cs).takeWhile isUpperA, i)
        :: acroScanF fuel true ((c :: cs).drop ((c :: cs).takeWhile isUpperA).length)
            (i + ((c :: cs).takeWhile isUpperA).length)
    else acroScanF fuel (isWordChar c) cs (i + 1)

/-- The acronym scan at full fuel. -/
def acroScanGo (prevW : Bool) (l : List Char) (i : Nat) : List (List Char × Nat) :=
  acroScanF (l.length + 1) prevW l i

/-- The function `extractEntities` (source lines 114-135): the capitalized-phrase
pass (keeping matches longer than 2 characters) followed by the
acronym pass, concatenated without deduplication. -/
def extractEntities (t : List Char) : List Entity :=
  ((capScanGo [] t 0).filter (fun m => decide (2 < m.1.length))).map
    (fun m => { text := m.1, position := m.2 })
  ++ (acroScanGo false t 0).map (fun m => { text := m.1, position := m.2 })

/-- C4: the claim says the capitalized-phrase pass never reports a
capitalized word that merely starts a sentence — but the code does:
because the `[^A-Z]*` part of the lookbehind may match the empty
string, the lookbehind succeeds immediately at the start of the
document and immediately after a ". " boundary, exactly where the
comment above the regex ("Capitalized words not at sentence start")
says matches are excluded. On "Hello" the pass reports the entity
"Hello" at offset 0, the first word of the document; on ". Hello" it
reports "Hello" at offset 2, the first word after a ". " boundary. -/
theorem extractEntities_sentence_initial :
    extractEntities ("Hello".toList) = [{ text := "Hello".toList, position := 0 }] ∧
    extractEntities (". Hello".toList) = [{ text := "Hello".toList, position := 2 }] := by
  constructor <;> decide

/-- JavaScript `Math.ceil(n / s)` for a non-negative integer `n` and
an integer chunk size `s`: `none` models the non-finite result
(`Infinity` or `NaN`) produced when `s` is zero. -/
def jsCeilDiv (n : Nat) (s : Int) : Option Int :=
  if s = 0 then none else some ⌈(n : ℚ) / (s : ℚ)⌉

/-- JavaScript `Math.floor(a / s)` under the same conventions. -/
def jsFloorDiv (a : Nat) (s : Int) : Option Int :=
  if s = 0 then none else some ⌊(a : ℚ) / (s : ℚ)⌋

/-- JavaScript `a % s` for a non-negative integer `a`: the remainder
has the sign of the dividend, so for `s ≠ 0` it is `a mod |s|`;
`s = 0` yields `NaN`, modelled as `none`. -/
def jsRem (a : Nat) (s : Int) : Option Nat :=
  if s = 0 then none else some (a % s.natAbs)

/-- JavaScript `Math.round` (half toward positive infinity). -/
def jsRound (q : ℚ) : Int := ⌊q + 1 / 2⌋

/-- A paragraph record (source lines 204-210). `chunksRequired` is
`Math.ceil(tokenCount / chunkSize)`. -/
structure ParagraphInfo where
  index : Nat
  text : List Char
  tokenCount : Nat
  exceedsChunk : Bool
  chunksRequired : Option Int
deriving DecidableEq

/-- The `paragraphs.map` of the aggregator (source lines 202-211). -/
def paragraphAnalysis (chunkSize : Int) (content : List Char) : List ParagraphInfo :=
  (splitParagraphs content).mapIdx (fun idx p =>
    { index := idx, text := p,
      tokenCount := (approximateTokenize p).length,
      exceedsChunk := decide (chunkSize < ((approximateTokenize p).length : Int)),
      chunksRequired := jsCeilDiv (approximateTokenize p).length chunkSize })

/-- An entity record extended with positional data
(source lines 232-239). -/
structure EntityInfo where
  text : List Char
  position : Nat
  tokenPosition : Nat
  chunkIndex : Option Int
  positionInChunk : Option Nat
  attentionScore : Option ℚ
  isLowAttention : Bool
deriving DecidableEq

/-- The token-position loop of the aggregator (source lines 218-226):
walk the token list accumulating character counts until the count
reaches the entity's character offset; when the loop finishes
without reaching it, the position stays at its initial value 0. -/
def tokenPositionFor : List (List Char) → Nat → Nat → Nat → Nat
  | [], _, _, _ => 0
  | t :: ts, charCount, i, pos =>
    if pos ≤ charCount then i
    else tokenPositionFor ts (charCount + t.length) (i + 1) pos

/-- The `entities.map` of the aggregator (source lines 217-240).
`none` in `chunkIndex`, `positionInChunk` and `attentionScore`
models the non-finite values produced when `chunkSize` is zero
(`NaN < 0.65` is false, so `isLowAttention` is then `false`). -/
def entityAnalysis (chunkSize : Int) (gptTokens : List (List Char))
    (entities : List Entity) : List EntityInfo :=
  entities.map (fun entity =>
    { text := entity.text, position := entity.position,
      tokenPosition := tokenPositionFor gptTokens 0 0 entity.position,
      chunkIndex := jsFloorDiv (tokenPositionFor gptTokens 0 0 entity.position) chunkSize,
      positionInChunk := jsRem (tokenPositionFor gptTokens 0 0 entity.position) chunkSize,
      attentionScore := (jsRem (tokenPositionFor gptTokens 0 0 entity.position)
          chunkSize).map (fun p => getAttentionScore (p : ℚ) (chunkSize : ℚ)),
      isLowAttention := ((jsRem (tokenPositionFor gptTokens 0 0 entity.position)
          chunkSize).map (fun p => getAttentionScore (p : ℚ) (chunkSize : ℚ))).any
        (fun a => decide (a < 0.65)) })

/-- Word count (source line 243): the number of maximal runs of
non-whitespace characters, as computed by splitting on whitespace
and keeping the non-empty pieces. -/
def countWords : List Char → Nat
  | [] => 0
  | c :: cs =>
    if isSpaceJS c then countWords cs
    else 1 + countWords (cs.dropWhile (fun d => !isSpaceJS d))
termination_by l => l.length
decreasing_by
  all_goals
    have h : (cs.dropWhile (fun d => !isSpaceJS d)).length ≤ cs.length :=
      (List.dropWhile_sublist _).length_le
    simp only [List.length_cons]
    omega

/-- The cross-model variance (source lines 250-252):
`Math.round(((max − min) / gptCount) × 100)`; `none` models the
non-finite value produced when the GPT token count is zero. -/
def varianceCalc (gptCount claudeCount geminiCount : Nat) : Option Int :=
  if gptCount = 0 then none
  else some (jsRound (((max gptCount (max claudeCount geminiCount) -
      (min gptCount (min claudeCount geminiCount)) : Nat) : ℚ) / (gptCount : ℚ) * 100))

/-- The efficiency label (source line 258). -/
inductive Efficiency
  | optimal
  | acceptable
  | verbose
deriving DecidableEq

/-- The aggregated analysis record (source lines 246-259). The
token fields hold the counts; `wordsPerToken` is kept as an exact
rational (the source formats it to three decimals only for display),
with `none` modelling the `NaN` of a zero token count. -/
structure AnalysisResult where
  gptTokens : Nat
  claudeTokens : Nat
  geminiTokens : Nat
  variance : Option Int
  paragraphs : List ParagraphInfo
  chunks : List Chunk
  entities : List EntityInfo
  wordCount : Nat
  wordsPerToken : Option ℚ
  efficiency : Efficiency
deriving DecidableEq

/-- The analysis aggregator (source lines 194-260): `none` when the
trimmed input is empty, otherwise the assembled record. A `NaN`
words-per-token value (zero tokens) would compare false against both
0.75 and 0.65 and hence label the result `verbose`. -/
def analysis (chunkSize : Int) (content : List Char) : Option AnalysisResult :=
  if jsTrim content = [] then none
  else some
    { gptTokens := (approximateTokenize content).length,
      claudeTokens := (approximateClaudeTokenize content).length,
      geminiTokens := (approximateGeminiTokenize content).length,
      variance := varianceCalc (approximateTokenize content).length
        (approximateClaudeTokenize content).length
        (approximateGeminiTokenize content).length,
      paragraphs := paragraphAnalysis chunkSize content,
      chunks := chunkContent chunkSize (approximateTokenize content),
      entities := entityAnalysis chunkSize (approximateTokenize content)
        (extractEntities content),
      wordCount := countWords content,
      wordsPerToken :=
        if (approximateTokenize content).length = 0 then none
        else some ((countWords content : ℚ) / ((approximateTokenize content).length : ℚ)),
      efficiency :=
        match (if (approximateTokenize content).length = 0 then none
          else some ((countWords content : ℚ)
              / ((approximateTokenize content).length : ℚ)) : Option ℚ) with
        | none => Efficiency.verbose
        | some q =>
          if 0.75 ≤ q then Efficiency.optimal
          else if 0.65 ≤ q then Efficiency.acceptable
          else Efficiency.verbose }

/-- Hint severities (source lines 271-316). The messages are
presentation strings and are not modelled; each rule contributes its
severity exactly when its source condition fires. -/
inductive HintType
  | critical
  | warning
  | optimize
  | info
deriving DecidableEq

/-- The hint rules (source lines 265-319), in source order. In rule 1
an entity whose `chunkIndex` is the non-finite `none` is counted in
neither list (`NaN` comparisons are false; the `Infinity > 0` case
can arise only at chunk size zero, which no claim exercises through
the hints). -/
def hintRules (chunkSize : Int) (a : AnalysisResult) : List HintType :=
  (if (a.entities.filter (fun e => e.chunkIndex == some 0)).length <
      (a.entities.filter (fun e => e.chunkIndex.any (fun k => decide (0 < k)))).length
    then [HintType.warning] else [])
  ++ (if 0 < (a.entities.filter (fun e => e.isLowAttention)).length
    then [HintType.critical] else [])
  ++ (if 0 < (a.paragraphs.filter (fun p => p.exceedsChunk)).length
    then [HintType.warning] else [])
  ++ (if a.efficiency = Efficiency.verbose then [HintType.optimize] else [])
  ++ (if 5 < a.chunks.length then [HintType.info] else [])
  ++ (if 120 < chunkSize then [HintType.optimize] else [])

/-- The hints memo (source lines 263-320): empty when there is no
analysis, otherwise the rule results. -/
def hints (chunkSize : Int) (content : List Char) : List HintType :=
  match analysis chunkSize content with
  | none => []
  | some a => hintRules chunkSize a

theorem gpt_tokenize_ne_nil (c : Char) (cs : List Char) :
    approximateTokenize (c :: cs) ≠ [] := by
  rw [approximateTokenize]
  intro h
  rcases List.append_eq_nil.mp h with ⟨h1, _⟩
  have hpos := gptMatch_pos c cs
  rcases hm : gptMatch (c :: cs) with _ | ⟨d, ds⟩
  · rw [hm] at hpos
    simp at hpos
  · rw [hm] at h1
    split at h1
    · rw [split4] at h1
      exact absurd h1 (by simp)
    · exact absurd h1 (by simp)

theorem claude_tokenize_ne_nil (c : Char) (cs : List Char) :
    approximateClaudeTokenize (c :: cs) ≠ [] := by
  rw [approximateClaudeTokenize]
  simp

theorem gemini_tokenize_ne_nil (c : Char) (cs : List Char) :
    approximateGeminiTokenize (c :: cs) ≠ [] := by
  rw [approximateGeminiTokenize]
  simp

/-- C6: whenever an `AnalysisResult` is produced, the variance and the
words-per-token ratio in it are defined values (`some _`), never the
`NaN` of a division by a zero token count: a produced result means
the trimmed input was non-empty, so the input was non-empty and the
primary tokenizer returned at least one token, making both divisors
positive. -/
theorem variance_words_per_token_defined (chunkSize : Int) (content : List Char) :
    (analysis chunkSize content).all
      (fun r => r.variance.isSome && r.wordsPerToken.isSome) = true := by
  rw [analysis]
  by_cases h : jsTrim content = []
  · rw [if_pos h]
    rfl
  · rw [if_neg h]
    have hc : content ≠ [] := by
      intro hc
      rw [hc] at h
      exact h rfl
    have hg : approximateTokenize content ≠ [] := by
      match content, hc with
      | c :: cs, _ => exact gpt_tokenize_ne_nil c cs
    have hlen : (approximateTokenize content).length ≠ 0 := by
      intro h0
      exact hg (List.length_eq_zero.mp h0)
    simp only [Option.all_some, Bool.and_eq_true, Option.isSome_iff_exists]
    constructor
    · rw [varianceCalc, if_neg hlen]
      exact ⟨_, rfl⟩
    · rw [if_neg hlen]
      exact ⟨_, rfl⟩

/-- C7: for every input that is empty or whitespace-only (trims to
the empty string) the analysis result is absent and the hint list is
empty. -/
theorem empty_input_absent_result (chunkSize : Int) (content : List Char)
    (h : ∀ c ∈ content, isSpaceJS c = true) :
    analysis chunkSize content = none ∧ hints chunkSize content = [] := by
  have ht : jsTrim content = [] := jsTrim_all_space content h
  constructor
  · rw [analysis, if_pos ht]
  · rw [hints, analysis, if_pos ht]

/-- Witness for C7 on a whitespace-only input. -/
theorem empty_input_absent_result_witness :
    analysis 100 (" \n ".toList) = none ∧ hints 100 (" \n ".toList) = [] :=
  empty_input_absent_result 100 (" \n ".toList) (by decide)

/-- C5 counterexample: with chunk size 0 the analysis neither rejects
the input (a result is still produced) nor clamps the size to 1 — it
produces undefined division results: the paragraph `chunksRequired`
and the entity `chunkIndex`/`positionInChunk`/`attentionScore` are
the non-finite `Infinity`/`NaN` values, modelled `none`. A clamp to 1
would instead have produced the defined values of chunk size 1. -/
theorem chunk_size_zero_undefined :
    (analysis 0 ("hi".toList)).isSome = true ∧
    (paragraphAnalysis 0 ("hi".toList)).map ParagraphInfo.chunksRequired = [none] ∧
    (entityAnalysis 0 (approximateTokenize ("NASA".toList))
        (extractEntities ("NASA".toList))).map EntityInfo.chunkIndex = [none, none] ∧
    (entityAnalysis 0 (approximateTokenize ("NASA".toList))
        (extractEntities ("NASA".toList))).map EntityInfo.positionInChunk = [none, none] ∧
    (entityAnalysis 0 (approximateTokenize ("NASA".toList))
        (extractEntities ("NASA".toList))).map EntityInfo.attentionScore = [none, none] := by
  have hent : extractEntities ("NASA".toList) =
      [{ text := "NASA".toList, position := 0 }, { text := "NASA".toList, position := 0 }] := by
    decide
  refine ⟨?_, ?_, ?_, ?_, ?_⟩
  · rw [analysis, if_neg (by decide)]
    rfl
  · simp [paragraphAnalysis, splitParagraphs, splitGo, jsTrim, isSpaceJS, jsCeilDiv,
      String.toList]
  · rw [hent]
    simp [entityAnalysis, jsFloorDiv, jsRem]
  · rw [hent]
    simp [entityAnalysis, jsRem]
  · rw [hent]
    simp [entityAnalysis, jsRem]

theorem chunkAux_small (S : Int) (hS : S ≤ 1) :
    ∀ (toks : List (List Char)) (idx : Nat),
      (chunkAux S toks [] [] idx).length = toks.length ∧
      ∀ ch ∈ chunkAux S toks [] [] idx, ch.tokenCount = 1 := by
  intro toks
  induction toks with
  | nil =>
    intro idx
    simp [chunkAux]
  | cons t ts ih =>
    intro idx
    rw [chunkAux]
    rw [if_pos (Or.inl (by simpa using hS))]
    constructor
    · simp only [List.length_cons]
      rw [(ih _).1]
    · intro ch hch
      rcases List.mem_cons.mp hch with h | h
      · subst h
        simp
      · exact (ih _).2 ch h

/-- C5 amended: the code neither rejects nor clamps a non-positive
chunk size. No loop can diverge — the chunker is total, for any
chunk size its output has at most one chunk per token, and for chunk
size ≤ 1 it emits exactly one single-token chunk per token (so a
chunk size of 0 or less behaves like a clamp to 1 for the chunking
itself) — but the division-derived fields are not guarded: with
chunk size 0 every paragraph's `chunksRequired` and every entity's
`chunkIndex`, `positionInChunk` and `attentionScore` are the
non-finite `Infinity`/`NaN` values, modelled as `none`. -/
theorem chunk_size_nonpositive_behavior (S : Int) (hS : S ≤ 1)
    (toks : List (List Char)) (content : List Char) :
    (chunkContent S toks).length = toks.length ∧
    (∀ ch ∈ chunkContent S toks, ch.tokenCount = 1) ∧
    (∀ S2 : Int, (chunkContent S2 toks).length ≤ toks.length) ∧
    (S = 0 →
      (∀ p ∈ paragraphAnalysis S content, p.chunksRequired = none) ∧
      (∀ e ∈ entityAnalysis S (approximateTokenize content) (extractEntities content),
        e.chunkIndex = none ∧ e.positionInChunk = none ∧ e.attentionScore = none)) := by
  refine ⟨(chunkAux_small S hS toks 0).1, (chunkAux_small S hS toks 0).2,
    fun S2 => chunkAux_length_le S2 toks [] [] 0, ?_⟩
  intro hS0
  subst hS0
  constructor
  · intro p hp
    rw [paragraphAnalysis, List.mapIdx_eq_enum_map] at hp
    rcases List.mem_map.mp hp with ⟨q, _, hq⟩
    rcases q with ⟨i, a⟩
    rw [← hq]
    simp [Function.uncurry, jsCeilDiv]
  · intro e he
    rcases List.mem_map.mp he with ⟨q, _, hq⟩
    rw [← hq]
    refine ⟨?_, ?_, ?_⟩
    · simp [jsFloorDiv]
    · simp [jsRem]
    · simp [jsRem]

/-- Witness for C5 amended at chunk size 0. -/
theorem chunk_size_nonpositive_behavior_witness :
    (chunkContent (0 : Int) [['a'], ['b']]).length = 2 :=
  (chunk_size_nonpositive_behavior 0 (by decide) [['a'], ['b']] ("hi".toList)).1

/-- C10: for every input whose trimmed form is non-empty, each of the
three tokenizers returns at least one token; consequently whenever an
`AnalysisResult` is produced, its primary token count is at least 1
(so the variance and words-per-token divisions divide by a positive
number) and its chunk list is non-empty. -/
theorem nonempty_input_tokens :
    (∀ content : List Char, jsTrim content ≠ [] →
      approximateTokenize content ≠ [] ∧ approximateClaudeTokenize content ≠ [] ∧
      approximateGeminiTokenize content ≠ []) ∧
    (∀ (chunkSize : Int) (content : List Char),
      (analysis chunkSize content).all
        (fun r => decide (1 ≤ r.gptTokens) && !r.chunks.isEmpty) = true) := by
  constructor
  · intro content h
    have hc : content ≠ [] := by
      intro hc
      rw [hc] at h
      exact h rfl
    match content, hc with
    | c :: cs, _ =>
      exact ⟨gpt_tokenize_ne_nil c cs, claude_tokenize_ne_nil c cs,
        gemini_tokenize_ne_nil c cs⟩
  · intro chunkSize content
    rw [analysis]
    by_cases h : jsTrim content = []
    · rw [if_pos h]
      rfl
    · rw [if_neg h]
      have hc : content ≠ [] := by
        intro hc
        rw [hc] at h
        exact h rfl
      match content, hc with
      | c :: cs, _ =>
        have hg := gpt_tokenize_ne_nil c cs
        have hlen : 0 < (approximateTokenize (c :: cs)).length := List.length_pos.mpr hg
        have hchunks : chunkContent chunkSize (approximateTokenize (c :: cs)) ≠ [] :=
          chunkAux_ne_nil _ _ _ _ _ hg
        simp only [Option.all_some, Bool.and_eq_true, decide_eq_true_eq,
          Bool.not_eq_true']
        exact ⟨hlen, by simpa using hchunks⟩

/-- Witness for C10 on the input "hi" at chunk size 100. -/
theorem nonempty_input_tokens_witness :
    jsTrim ("hi".toList) ≠ [] ∧ approximateTokenize ("hi".toList) ≠ [] ∧
    (analysis 100 ("hi".toList)).all
      (fun r => decide (1 ≤ r.gptTokens) && !r.chunks.isEmpty) = true :=
  ⟨by decide, (nonempty_input_tokens.1 ("hi".toList) (by decide)).1,
   nonempty_input_tokens.2 100 ("hi".toList)⟩
